import Mathlib

/-!
Verification of the `parse_des.py` monster-extraction pipeline.

Every definition below is a shallow embedding of the corresponding Python
function in `parse_des.py`, working over `List Char` (Python strings are
modelled as lists of characters, the filesystem as a finite tree).
Definitions whose name starts with `spec_` instead follow the wording of the
natural-language specification, for comparison against the code.
-/

/-- The whitespace class of Python's `str.strip` / regex `\s` (ASCII part). -/
def isWS (c : Char) : Bool :=
  c == ' ' || c == '\t' || c == '\n' || c == '\r' || c == '\x0b' || c == '\x0c'

/-- The marker `"KMONS:"` as a character list. -/
def kmons6 : List Char := ['K', 'M', 'O', 'N', 'S', ':']

/-- The marker `"MONS:"` as a character list. -/
def mons5 : List Char := ['M', 'O', 'N', 'S', ':']

/-- The literal `"name"` tested by `cull_unnamed_monsters`. -/
def name4 : List Char := ['n', 'a', 'm', 'e']

/-- Python's substring test `pat in s`. -/
def containsSub (pat : List Char) : List Char → Bool
  | [] => pat.isEmpty
  | c :: rest => pat.isPrefixOf (c :: rest) || containsSub pat rest

/-- Python's `s.split(sep)` for a one-character separator. -/
def splitSep (sep : Char) : List Char → List (List Char)
  | [] => [[]]
  | c :: rest =>
    match splitSep sep rest with
    | [] => [[]]
    | s :: ss => if c = sep then [] :: s :: ss else (c :: s) :: ss

/-- `CLEANUP_WHITESPACE`: `re.sub("(\s)+", r"\1", line)` — each maximal run of
whitespace is replaced by its final character. -/
def collapseWS : List Char → List Char
  | [] => []
  | [c] => [c]
  | c :: d :: rest =>
    if isWS c && isWS d then collapseWS (d :: rest)
    else c :: collapseWS (d :: rest)

/-- Left part of Python `str.strip`. -/
def stripL (l : List Char) : List Char := l.dropWhile isWS

/-- Right part of Python `str.strip`. -/
def stripR (l : List Char) : List Char := (l.reverse.dropWhile isWS).reverse

/-- Python `str.strip()`. -/
def pyStrip (l : List Char) : List Char := stripR (stripL l)

/-- Python `line.split("=")[-1]`: the segment after the last `=`
(the whole string when there is no `=`). -/
def afterLastEq (l : List Char) : List Char :=
  (l.reverse.takeWhile (fun c => c != '=')).reverse

/-- Python `line.replace("MONS:", "")`: left-to-right, non-overlapping. -/
def replaceMons : List Char → List Char
  | 'M' :: 'O' :: 'N' :: 'S' :: ':' :: rest => replaceMons rest
  | c :: rest => c :: replaceMons rest
  | [] => []

/-- `cleanup_mons_line` from `parse_des.py` (lines 57-72). -/
def cleanup_mons_line (line : List Char) : List Char :=
  let l1 := pyStrip line
  let l2 := if kmons6.isPrefixOf l1 then pyStrip (afterLastEq l1) else l1
  pyStrip (collapseWS (replaceMons l2))

/-- Normalization as worded by the specification (§4.1): trim; if the string
begins with `KMONS:` keep only the portion after the last `=`; remove any
remaining `MONS:` substring; collapse whitespace runs; trim again.
(The code additionally strips the glyph-assignment remainder before the
`MONS:` removal; the two are compared in the theorems below.) -/
def spec_normalize (line : List Char) : List Char :=
  let l1 := pyStrip line
  let l2 := if kmons6.isPrefixOf l1 then afterLastEq l1 else l1
  pyStrip (collapseWS (replaceMons l2))

/-- `parse_mons_line` from `parse_des.py` (lines 74-91). -/
def parse_mons_line (line : List Char) : List (List Char) :=
  let l := cleanup_mons_line line
  let monsters := splitSep '/' l
  let new_monsters := monsters.foldl
    (fun acc m => if ',' ∈ m then acc ++ splitSep ',' m else acc ++ [m]) []
  new_monsters.map cleanup_mons_line

/-- The splitter as worded by the specification (§4.2): split the *raw* line on
`/`, then each comma-containing token on `,`, then normalize every token. -/
def spec_split_line (line : List Char) : List (List Char) :=
  let monsters := splitSep '/' line
  let new_monsters := monsters.foldl
    (fun acc m => if ',' ∈ m then acc ++ splitSep ',' m else acc ++ [m]) []
  new_monsters.map cleanup_mons_line

/-- `cull_unnamed_monsters` from `parse_des.py` (lines 93-108). -/
def cull_unnamed_monsters (lines : List (List Char)) : List (List Char) :=
  lines.foldl (fun acc m => if containsSub name4 m then acc ++ [m] else acc) []

/-- `IGNORE_DES_FILES` (line 25). -/
def IGNORE_DES_FILES : List (List Char) := ["test.des".toList]

/-- `IGNORE_DES_SUBFOLDERS` (line 28). -/
def IGNORE_DES_SUBFOLDERS : List (List Char) :=
  ["builder".toList, "zotdef".toList, "tutorial".toList]

/-- The recognized extension `".des"`. -/
def desExt : List Char := ".des".toList

/-- Python `file.readlines()`: split after each newline, keeping the newline
characters; no empty final element. -/
def pyReadlines : List Char → List (List Char)
  | [] => []
  | c :: rest =>
    if c = '\n' then ['\n'] :: pyReadlines rest
    else
      match pyReadlines rest with
      | [] => [[c]]
      | a :: as => (c :: a) :: as

/-- `CLEANUP_SPELLS`: `re.sub(";\\\n", ";", line)` — a semicolon followed by a
backslash-newline becomes a bare semicolon. -/
def CLEANUP_SPELLS : List Char → List Char
  | ';' :: '\\' :: '\n' :: rest => ';' :: CLEANUP_SPELLS rest
  | c :: rest => c :: CLEANUP_SPELLS rest
  | [] => []

/-- `CLEANUP_LINES`: `line.replace("\\\n", "")`. -/
def CLEANUP_LINES : List Char → List Char
  | '\\' :: '\n' :: rest => CLEANUP_LINES rest
  | c :: rest => c :: CLEANUP_LINES rest
  | [] => []

/-- The part of the regex `K?MONS:\s*(?:[^\n]*)\n` after the marker, with
Python backtracking semantics: greedy `\s*`, greedy `[^\n]*`, then a literal
newline; on failure `\s*` backtracks so that the match ends at the last
newline inside the leading whitespace run.  Returns the matched tail and the
remainder of the text, or `none`. -/
def matchTail (r : List Char) : Option (List Char × List Char) :=
  let W := r.takeWhile isWS
  let rest1 := r.drop W.length
  let C := rest1.takeWhile (fun c => c != '\n')
  let rest2 := rest1.drop C.length
  match rest2 with
  | '\n' :: rest3 => some (W ++ C ++ ['\n'], rest3)
  | _ =>
    if '\n' ∈ W then
      some ((W.reverse.dropWhile (fun c => c != '\n')).reverse,
            (W.reverse.takeWhile (fun c => c != '\n')).reverse ++ C)
    else none

/-- Attempt of `FIND_MONS_LINES` at the head of the text (the `K` alternative
of `K?` is tried first, as the regex engine does). -/
def tryMatch (l : List Char) : Option (List Char × List Char) :=
  if kmons6.isPrefixOf l then
    (matchTail (l.drop 6)).map (fun p => (kmons6 ++ p.1, p.2))
  else if mons5.isPrefixOf l then
    (matchTail (l.drop 5)).map (fun p => (mons5 ++ p.1, p.2))
  else none

/-- `re.findall` scan: try a match at each position, left to right; after a
match, continue after its end.  `fuel` bounds the recursion (a match always
consumes at least one character, so `fuel = text.length` is enough). -/
def findallAux : Nat → List Char → List (List Char)
  | 0, _ => []
  | _ + 1, [] => []
  | fuel + 1, c :: rest =>
    match tryMatch (c :: rest) with
    | some (m, r) => m :: findallAux fuel r
    | none => findallAux fuel rest

/-- `FIND_MONS_LINES.findall(text)`. -/
def FIND_MONS_LINES_findall (l : List Char) : List (List Char) :=
  findallAux l.length l

/-- The directive lines as worded by the specification and by claim C2:
exactly the text lines *beginning* with `MONS:` or `KMONS:`, each taken up to
and including its newline. -/
def spec_directive_lines (t : List Char) : List (List Char) :=
  (pyReadlines t).filter (fun l => kmons6.isPrefixOf l || mons5.isPrefixOf l)

/-- A file on disk: base name and raw content. -/
structure DFile where
  fname : List Char
  content : List Char

mutual

/-- A directory tree: base name, subdirectories, files. -/
inductive FSTree : Type where
  | dir : List Char → FSForest → List DFile → FSTree

/-- A list of sibling directories. -/
inductive FSForest : Type where
  | fnil : FSForest
  | fcons : FSTree → FSForest → FSForest

end

mutual

/-- `os.walk` (top-down): the root's `(basename, files)` entry followed by the
entries of each subdirectory, in order. -/
def walkDirs : FSTree → List (List Char × List DFile)
  | .dir n subs files => (n, files) :: walkForest subs

/-- `os.walk` over a list of sibling directories. -/
def walkForest : FSForest → List (List Char × List DFile)
  | .fnil => []
  | .fcons t ts => walkDirs t ++ walkForest ts

end

/-- The per-file pre-processing and extraction of `generate_monster_lines`
(lines 144-152): read lines, strip each, re-join with newlines, fix wrapped
spell lists, drop escaped line breaks, then parse every regex match. -/
def processFileData (content : List Char) : List (List Char) :=
  let d := List.intercalate ['\n'] ((pyReadlines content).map pyStrip)
  let d := CLEANUP_LINES (CLEANUP_SPELLS d)
  (FIND_MONS_LINES_findall d).foldl (fun acc line => acc ++ parse_mons_line line) []

/-- The body of the inner file loop of `generate_monster_lines` (lines
131-154); the state is `(done, monster_lines)`. -/
def processOneFile (st : List (List Char) × List (List Char)) (f : DFile) :
    List (List Char) × List (List Char) :=
  if f.fname ∈ st.1 then st
  else if f.fname ∈ IGNORE_DES_FILES then st
  else if desExt.isSuffixOf f.fname = false then st
  else (st.1 ++ [f.fname], st.2 ++ processFileData f.content)

/-- One `os.walk` iteration of `generate_monster_lines` (lines 125-154):
skip the directory when its base name is ignored, else process its files. -/
def scanDirStep (st : List (List Char) × List (List Char))
    (e : List Char × List DFile) : List (List Char) × List (List Char) :=
  if e.1 ∈ IGNORE_DES_SUBFOLDERS then st
  else e.2.foldl processOneFile st

/-- `generate_monster_lines` from `parse_des.py` (lines 110-159). -/
def generate_monster_lines (tree : FSTree) (cullFlag : Bool) : List (List Char) :=
  let st := (walkDirs tree).foldl scanDirStep ([], [])
  if cullFlag then cull_unnamed_monsters st.2 else st.2

/-- The quote replacement of line 181: `mons.replace('"', "'")`. -/
def qfix (c : Char) : Char := if c = '"' then Char.ofNat 39 else c

/-- One generated `push_back` line (line 181). -/
def pushLine (m : List Char) : List Char :=
  "    vault_monsters.push_back(\"".toList ++ m.map qfix ++ "\");\n".toList

/-- The generated `reserve` line (line 178). -/
def reserveLine (n : Nat) : List Char :=
  "    vault_monsters.reserve(".toList ++ (Nat.repr n).toList ++ ");\n".toList

/-- Everything `publish_monsters_as_cpp` writes before the `reserve` call
(lines 172-177). -/
def publishHeader : List Char :=
  ("/**\n * @file vault_monster_data.cc\n * @author Jude Brown <bookofjude@users.sourceforge.net>\n * @version 1\n *\n * @section DESCRIPTION\n *\n * This file is automatically generated. Any changes to it will be discarded.\n *\n**/\n"
   ++ "#include \"AppHdr.h\"\n\n"
   ++ "/**\n * Return a vector of vault-defined monster specification strings.\n *\n * @return A vector of std::strings.\n *\n**/\n"
   ++ "std::vector<std::string> get_vault_monsters ()\n"
   ++ "\x7b\n"
   ++ "    std::vector<std::string> vault_monsters;\n").toList

/-- Everything `publish_monsters_as_cpp` writes after the loop (lines 183-184). -/
def publishFooter : List Char :=
  ("    return vault_monsters;\n" ++ "\x7d\n").toList

/-- `publish_monsters_as_cpp` from `parse_des.py` (lines 161-184), as the
sequence of `output.write` calls accumulated into one document. -/
def publish_monsters_as_cpp (monster_list : List (List Char)) : List Char :=
  let buf := publishHeader ++ reserveLine monster_list.length
  let buf := monster_list.foldl (fun b m => b ++ pushLine m) buf
  buf ++ publishFooter

/-- The list of string literals pushed by the generated accessor (line 181). -/
def pushedLiterals (monster_list : List (List Char)) : List (List Char) :=
  monster_list.map (fun m => m.map qfix)

/-- The message of the `MapParseError` raised at line 219. -/
def desFolderErrorMsg (d : List Char) : List Char :=
  "Specified des folder ".toList ++ Char.ofNat 39 :: d
    ++ Char.ofNat 39 :: " is not a folder!".toList

/-- The tail of `main` (lines 218-224): the `os.path.isdir` validation, then
scan (with `cull=True`), then emission.  `isdir` models the filesystem check
and `fsOf` the tree found at the path; a `MapParseError` is the
`Except.error` case, which short-circuits before any scanning or emission. -/
def pymain (isdir : List Char → Bool) (fsOf : List Char → FSTree)
    (des_folder : List Char) : Except (List Char) (List Char) :=
  if isdir des_folder then
    Except.ok (publish_monsters_as_cpp
      (generate_monster_lines (fsOf des_folder) true))
  else
    Except.error (desFolderErrorMsg des_folder)

/-- A match is well-shaped when it begins with a directive marker and ends
with a newline. -/
def goodMatch (m : List Char) : Bool :=
  (kmons6.isPrefixOf m || mons5.isPrefixOf m) && (m.getLast? == some '\n')

/-- A string with no two adjacent whitespace characters (the invariant
established by `collapseWS`). -/
def noWSrun : List Char → Bool
  | c :: d :: rest => !(isWS c && isWS d) && noWSrun (d :: rest)
  | _ => true

/-! ### Concrete source trees used by the end-to-end and scanner claims -/

/-- A forest holding `builder/b.des` (`builder` is an ignored subfolder). -/
def c1Forest : FSForest :=
  .fcons (.dir "builder".toList .fnil [⟨"b.des".toList, "MONS: rat\n".toList⟩]) .fnil

/-- End-to-end scenario tree in which the directive line of `a.des` is
followed by a further line. -/
def c1GoodTree : FSTree :=
  .dir "des".toList c1Forest
    [⟨"a.des".toList, "MONS: orc named Thug/goblin, kobold\nNAME: c1\n".toList⟩]

/-- End-to-end scenario tree in which the directive line is the last line of
`a.des`. -/
def c1BadTree : FSTree :=
  .dir "des".toList c1Forest
    [⟨"a.des".toList, "MONS: orc named Thug/goblin, kobold\n".toList⟩]

/-- A tree with a `.des` file nested one level below the ignored `builder`
directory: `des/builder/sub/x.des`. -/
def c3BugTree : FSTree :=
  .dir "des".toList
    (.fcons (.dir "builder".toList
      (.fcons (.dir "sub".toList .fnil
        [⟨"x.des".toList, "MONS: orc named Bob\nend\n".toList⟩]) .fnil) []) .fnil) []

/-! ### Generic helper lemmas -/

lemma foldl_append_filter {α : Type} (p : α → Bool) (l : List α) (acc : List α) :
    l.foldl (fun a m => if p m then a ++ [m] else a) acc = acc ++ l.filter p := by
  induction l generalizing acc with
  | nil => simp
  | cons x t ih =>
    cases hp : p x <;> simp [List.filter_cons, hp, ih]

lemma foldl_append_map {α β : Type} (f : α → List β) (l : List α) (b : List β) :
    l.foldl (fun acc m => acc ++ f m) b = b ++ (l.map f).flatten := by
  induction l generalizing b with
  | nil => simp
  | cons x t ih => simp [ih]

lemma head?_dropWhile_not {α : Type} (p : α → Bool) (l : List α) :
    ∀ c, (l.dropWhile p).head? = some c → p c = false := by
  induction l with
  | nil => simp [List.dropWhile]
  | cons x t ih =>
    intro c
    by_cases hx : p x
    · simpa [List.dropWhile_cons, hx] using ih c
    · simp only [List.dropWhile_cons, if_neg hx, List.head?_cons]
      rintro ⟨rfl⟩
      exact Bool.eq_false_iff.mpr hx

lemma dropWhile_ne_nil_of_mem {α : Type} {p : α → Bool} {l : List α} {a : α}
    (h : a ∈ l) (hp : p a = false) : l.dropWhile p ≠ [] := by
  induction l with
  | nil => cases h
  | cons x t ih =>
    by_cases hx : p x
    · rcases List.mem_cons.mp h with rfl | hmem
      · rw [hx] at hp; cases hp
      · simpa [List.dropWhile_cons, hx] using ih hmem
    · simp [List.dropWhile_cons, hx]

lemma dropWhile_idem {α : Type} (p : α → Bool) (l : List α) :
    (l.dropWhile p).dropWhile p = l.dropWhile p := by
  cases h : l.dropWhile p with
  | nil => simp
  | cons c t =>
    have hc : p c = false := head?_dropWhile_not p l c (by rw [h]; rfl)
    simp [List.dropWhile_cons, hc]

/-! ### Claim theorems: emission, entry point, filter, splitter, scanner -/

/-- Claim C6: the name filter keeps a candidate exactly when the literal
substring `"name"` occurs in it, preserving order and transforming nothing:
`cull_unnamed_monsters` is `List.filter` with that predicate, hence a sublist
of its input. -/
theorem c6_name_filter (lines : List (List Char)) :
    cull_unnamed_monsters lines = lines.filter (fun m => containsSub name4 m)
      ∧ (cull_unnamed_monsters lines).Sublist lines := by
  have h : cull_unnamed_monsters lines
      = lines.filter (fun m => containsSub name4 m) := by
    unfold cull_unnamed_monsters
    simpa using foldl_append_filter (fun m => containsSub name4 m) lines []
  exact ⟨h, h ▸ List.filter_sublist lines⟩

/-- Claim C9: the emitted document is the fixed header, then a `reserve` call
whose capacity is the number of specs, then exactly one `push_back` line per
spec in order — each literal being the spec with every `"` replaced by `'`
and no other character altered — then the fixed footer. -/
theorem c9_emitter_format (specs : List (List Char)) :
    publish_monsters_as_cpp specs
        = publishHeader ++ reserveLine specs.length
          ++ (specs.map pushLine).flatten ++ publishFooter
      ∧ reserveLine specs.length
        = "    vault_monsters.reserve(".toList
          ++ (Nat.repr specs.length).toList ++ ");\n".toList
      ∧ (∀ m : List Char, pushLine m
          = "    vault_monsters.push_back(\"".toList
            ++ m.map qfix ++ "\");\n".toList)
      ∧ (∀ m : List Char, (m.map qfix).length = m.length) := by
  refine ⟨?_, rfl, fun m => rfl, fun m => m.length_map qfix⟩
  show List.foldl (fun b m => b ++ pushLine m)
      (publishHeader ++ reserveLine specs.length) specs ++ publishFooter = _
  rw [foldl_append_map pushLine specs (publishHeader ++ reserveLine specs.length)]

/-- Claim C8: when the resolved source directory is not a directory, `main`
raises the `MapParseError` immediately: the run short-circuits to the error
before any scanning or emission. -/
theorem c8_invalid_dir (isdir : List Char → Bool) (fsOf : List Char → FSTree)
    (d : List Char) (h : isdir d = false) :
    pymain isdir fsOf d = Except.error (desFolderErrorMsg d) := by
  simp [pymain, h]

/-- Witness for C8 at a concrete invalid directory. -/
theorem c8_invalid_dir_witness :
    pymain (fun _ => false) (fun _ => FSTree.dir [] .fnil []) "nodir".toList
      = Except.error (desFolderErrorMsg "nodir".toList) :=
  c8_invalid_dir (fun _ => false) (fun _ => FSTree.dir [] .fnil []) "nodir".toList rfl

/-- Counterexample to claim C4: on `"KMONS: a = b/c = d"` the code (which
normalizes the whole line *before* splitting) returns `["d"]`, while the
spec's raw-split-then-normalize procedure returns `["b", "c = d"]`. -/
theorem c4_counterexample :
    parse_mons_line "KMONS: a = b/c = d".toList
      ≠ spec_split_line "KMONS: a = b/c = d".toList := by decide

/-- Claim C4 as amended: the splitter first normalizes the whole raw line,
then splits on `/` and `,`, then normalizes each token again; it therefore
coincides with the spec's raw-split procedure applied to the pre-normalized
line. -/
theorem c4_amended (line : List Char) :
    parse_mons_line line = spec_split_line (cleanup_mons_line line)
      ∧ parse_mons_line "KMONS: a = b/c = d".toList = ["d".toList] := by
  exact ⟨rfl, by decide⟩

/-- Claim C3 (code bug): a `.des` file under `des/builder/sub/` — inside the
subtree of the ignored `builder` directory — is still scanned, because
`os.walk` is not pruned: the candidate `"orc named Bob"` is produced even
though `builder` is in the ignored-subfolder list. -/
theorem c3_ignored_subtree_bug :
    generate_monster_lines c3BugTree true = ["orc named Bob".toList]
      ∧ "builder".toList ∈ IGNORE_DES_SUBFOLDERS := by decide

set_option maxRecDepth 8000 in
/-- Counterexample to claim C1: when the directive line is the final line of
`a.des`, pre-processing drops the file's trailing newline, the regex (which
requires a newline after the directive text) matches nothing, and the
pipeline pushes no literal at all — in particular not `"orc named Thug"`. -/
theorem c1_counterexample :
    generate_monster_lines c1BadTree true = []
      ∧ containsSub "push_back".toList
          (publish_monsters_as_cpp (generate_monster_lines c1BadTree true))
        = false := by decide

set_option maxRecDepth 8000 in
/-- Claim C1 as amended: in the end-to-end scenario with the directive line
of `a.des` followed by a further line, the pipeline (scan, cull, emit)
pushes exactly the one literal `"orc named Thug"`; the `builder/b.des`
candidates never appear. -/
theorem c1_amended :
    pushedLiterals (generate_monster_lines c1GoodTree true)
        = ["orc named Thug".toList]
      ∧ containsSub "push_back(\"orc named Thug\");".toList
          (publish_monsters_as_cpp (generate_monster_lines c1GoodTree true))
        = true := by decide

/-! ### Matcher shape lemmas (claim C2) -/

lemma matchTail_last (r tl rest : List Char) (h : matchTail r = some (tl, rest)) :
    tl.getLast? = some '\n' := by
  simp only [matchTail] at h
  split at h
  · rename_i rest3 heq
    injection h with h1
    injection h1 with h2 h3
    subst h2
    simp
  · split at h
    · rename_i hmem
      injection h with h1
      injection h1 with h2 h3
      subst h2
      rw [List.getLast?_reverse]
      have hne : (List.reverse (r.takeWhile isWS)).dropWhile (fun c => c != '\n') ≠ [] :=
        dropWhile_ne_nil_of_mem (List.mem_reverse.mpr hmem) (by simp)
      cases hX : (List.reverse (r.takeWhile isWS)).dropWhile (fun c => c != '\n') with
      | nil => exact absurd hX hne
      | cons x xs =>
        have hx : (x != '\n') = false :=
          head?_dropWhile_not _ _ x (by rw [hX]; rfl)
        have : x = '\n' := by simpa using hx
        simp [hX, this]
    · cases h

lemma tryMatch_good (l m r : List Char) (h : tryMatch l = some (m, r)) :
    goodMatch m = true := by
  unfold tryMatch at h
  split at h
  · cases hm : matchTail (l.drop 6) with
    | none => rw [hm] at h; cases h
    | some p =>
      obtain ⟨tl, rest⟩ := p
      rw [hm] at h
      simp only [Option.map_some'] at h
      injection h with h1
      injection h1 with h2 h3
      subst h2
      have hlast := matchTail_last _ _ _ hm
      have hne : tl ≠ [] := by
        intro hh; rw [hh] at hlast; cases hlast
      have hpre : kmons6.isPrefixOf (kmons6 ++ tl) = true := by
        simp [List.isPrefixOf_iff_prefix]
      simp [goodMatch, hpre, List.getLast?_append, hlast]
  · split at h
    · cases hm : matchTail (l.drop 5) with
      | none => rw [hm] at h; cases h
      | some p =>
        obtain ⟨tl, rest⟩ := p
        rw [hm] at h
        simp only [Option.map_some'] at h
        injection h with h1
        injection h1 with h2 h3
        subst h2
        have hlast := matchTail_last _ _ _ hm
        have hpre : mons5.isPrefixOf (mons5 ++ tl) = true := by
          simp [List.isPrefixOf_iff_prefix]
        simp [goodMatch, hpre, List.getLast?_append, hlast]
    · cases h

/-- Counterexample to claim C2: on the text `"x MONS: rat\n"` the matcher
returns a match that starts mid-line, while the text has no line beginning
with a directive marker. -/
theorem c2_counterexample :
    FIND_MONS_LINES_findall "x MONS: rat\n".toList
      ≠ spec_directive_lines "x MONS: rat\n".toList := by decide

/-- Claim C2 as amended: the matcher scans the text left to right and
returns, in order of appearance, non-overlapping matches of `MONS:`/`KMONS:`
occurring *anywhere* in the text (not only at line starts), each extended up
to and including a following newline — so every returned match begins with a
marker and ends with a newline, a mid-line occurrence is matched, and a
final directive not followed by a newline is missed. -/
theorem c2_amended :
    (∀ (fuel : Nat) (l : List Char), (findallAux fuel l).all goodMatch = true)
      ∧ FIND_MONS_LINES_findall "x MONS: rat\n".toList = ["MONS: rat\n".toList]
      ∧ FIND_MONS_LINES_findall "MONS: orc on a final unterminated line".toList
          = [] := by
  refine ⟨?_, by decide, by decide⟩
  intro fuel
  induction fuel with
  | zero => intro l; simp [findallAux]
  | succ n ih =>
    intro l
    cases l with
    | nil => simp [findallAux]
    | cons c rest =>
      cases h : tryMatch (c :: rest) with
      | none => simpa [findallAux, h] using ih rest
      | some p =>
        obtain ⟨m, r⟩ := p
        simp [findallAux, h, tryMatch_good _ _ _ h, ih r]

/-! ### Strip, collapse and replace lemmas (claims C5, C7, C10) -/

lemma stripL_cons_ws {c : Char} (hc : isWS c = true) (l : List Char) :
    stripL (c :: l) = stripL l := by
  simp [stripL, List.dropWhile_cons, hc]

lemma stripL_cons_not_ws {c : Char} (hc : isWS c = false) (l : List Char) :
    stripL (c :: l) = c :: l := by
  simp [stripL, List.dropWhile_cons, hc]

lemma pyStrip_cons_ws {c : Char} (hc : isWS c = true) (l : List Char) :
    pyStrip (c :: l) = pyStrip l := by
  rw [pyStrip, pyStrip, stripL_cons_ws hc]

lemma stripR_decomp (l : List Char) :
    stripR l ++ (l.reverse.takeWhile isWS).reverse = l := by
  rw [stripR, ← List.reverse_append, List.takeWhile_append_dropWhile,
    List.reverse_reverse]

lemma stripR_prefix_self (l : List Char) : stripR l <+: l :=
  ⟨(l.reverse.takeWhile isWS).reverse, stripR_decomp l⟩

lemma stripR_idem (l : List Char) : stripR (stripR l) = stripR l := by
  rw [stripR, stripR, List.reverse_reverse, dropWhile_idem]

lemma getLast?_stripR_not_ws (l : List Char) (c : Char)
    (h : (stripR l).getLast? = some c) : isWS c = false := by
  rw [stripR, List.getLast?_reverse] at h
  exact head?_dropWhile_not _ _ _ h

lemma stripR_eq_self (l : List Char)
    (h : ∀ c, l.getLast? = some c → isWS c = false) : stripR l = l := by
  rw [stripR]
  have hd : l.reverse.dropWhile isWS = l.reverse := by
    cases hr : l.reverse with
    | nil => simp
    | cons x xs =>
      have hx : l.getLast? = some x := by
        rw [← List.head?_reverse, hr]; rfl
      simp [List.dropWhile_cons, h x hx]
  rw [hd, List.reverse_reverse]

lemma stripL_stripR_stripL (l : List Char) :
    stripL (stripR (stripL l)) = stripR (stripL l) := by
  cases hX : stripR (stripL l) with
  | nil => rfl
  | cons x xs =>
    obtain ⟨t, ht⟩ := stripR_prefix_self (stripL l)
    rw [hX] at ht
    have hx : (stripL l).head? = some x := by
      rw [← ht]; rfl
    exact stripL_cons_not_ws (head?_dropWhile_not isWS l x hx) xs

lemma pyStrip_idem (l : List Char) : pyStrip (pyStrip l) = pyStrip l := by
  rw [pyStrip, pyStrip, stripL_stripR_stripL, stripR_idem]

lemma head?_takeWhile {α : Type} (p : α → Bool) (l : List α) (c : α)
    (h : (l.takeWhile p).head? = some c) : l.head? = some c := by
  cases l with
  | nil => simp [List.takeWhile] at h
  | cons x t =>
    rw [List.takeWhile_cons] at h
    by_cases hx : p x
    · rw [if_pos hx] at h
      injection h with h1
      rw [h1]; rfl
    · rw [if_neg hx] at h; cases h

lemma takeWhile_all {α : Type} (p : α → Bool) (l : List α)
    (h : ∀ a ∈ l, p a = true) : l.takeWhile p = l := by
  induction l with
  | nil => rfl
  | cons x t ih =>
    rw [List.takeWhile_cons, if_pos (h x (List.mem_cons_self x t)),
      ih (fun a ha => h a (List.mem_cons_of_mem x ha))]

lemma afterLastEq_of_not_mem (l : List Char) (h : '=' ∉ l) :
    afterLastEq l = l := by
  rw [afterLastEq, takeWhile_all _ _ ?_, List.reverse_reverse]
  intro a ha
  have : a ≠ '=' := by
    intro hrfl; subst hrfl
    exact h (List.mem_reverse.mp ha)
  simpa using this

lemma collapseWS_cons_not_ws {c : Char} (hc : isWS c = false) (l : List Char) :
    collapseWS (c :: l) = c :: collapseWS l := by
  cases l with
  | nil => rfl
  | cons d t => simp [collapseWS, hc]

lemma pyStrip_collapseWS_ws_cons {c : Char} (hc : isWS c = true) (t : List Char) :
    pyStrip (collapseWS (c :: t)) = pyStrip (collapseWS t) := by
  cases t with
  | nil =>
    show pyStrip [c] = pyStrip []
    rw [pyStrip, pyStrip, stripL_cons_ws hc]
  | cons d t' =>
    cases hd : isWS d
    · have h1 : (isWS c && isWS d) = false := by rw [hd, Bool.and_false]
      rw [show collapseWS (c :: d :: t') = c :: collapseWS (d :: t') by
        simp [collapseWS, h1]]
      exact pyStrip_cons_ws hc _
    · have h1 : (isWS c && isWS d) = true := by rw [hc, hd, Bool.and_true]
      simp [collapseWS, h1]

lemma pyStrip_collapseWS_ws_append (w z : List Char)
    (hw : ∀ c ∈ w, isWS c = true) :
    pyStrip (collapseWS (w ++ z)) = pyStrip (collapseWS z) := by
  induction w with
  | nil => rfl
  | cons c t ih =>
    rw [List.cons_append, pyStrip_collapseWS_ws_cons (hw c (List.mem_cons_self c t)),
      ih (fun x hx => hw x (List.mem_cons_of_mem c hx))]

lemma noWSrun_cons (c : Char) (t : List Char) (h : noWSrun (c :: t) = true) :
    noWSrun t = true := by
  cases t with
  | nil => rfl
  | cons d r =>
    rw [noWSrun] at h
    exact (Bool.and_eq_true_iff.mp h).2

lemma noWSrun_cons_of_not_ws {c : Char} (hc : isWS c = false) (t : List Char)
    (ht : noWSrun t = true) : noWSrun (c :: t) = true := by
  cases t with
  | nil => rfl
  | cons d r => simp [noWSrun, hc, ht]

lemma noWSrun_cons_of_head {c : Char} {t : List Char} (ht : noWSrun t = true)
    (hh : ∀ d, t.head? = some d → isWS d = false) : noWSrun (c :: t) = true := by
  cases t with
  | nil => rfl
  | cons d r => simp [noWSrun, hh d rfl, ht]

lemma noWSrun_append_right (a b : List Char) (h : noWSrun (a ++ b) = true) :
    noWSrun b = true := by
  induction a with
  | nil => exact h
  | cons c t ih => exact ih (noWSrun_cons _ _ h)

lemma noWSrun_append_left (a b : List Char) (h : noWSrun (a ++ b) = true) :
    noWSrun a = true := by
  induction a with
  | nil => rfl
  | cons c t ih =>
    cases t with
    | nil => rfl
    | cons d r =>
      have h' : noWSrun (c :: d :: (r ++ b)) = true := by simpa using h
      rw [noWSrun] at h'
      obtain ⟨h1, h2⟩ := Bool.and_eq_true_iff.mp h'
      have h3 : noWSrun (d :: r) = true := ih (by simpa using h2)
      rw [noWSrun]
      exact Bool.and_eq_true_iff.mpr ⟨h1, h3⟩

lemma noWSrun_collapseWS (l : List Char) : noWSrun (collapseWS l) = true := by
  induction l with
  | nil => rfl
  | cons c t ih =>
    cases t with
    | nil => rfl
    | cons d r =>
      cases hcd : (isWS c && isWS d)
      · have hcoll : collapseWS (c :: d :: r) = c :: collapseWS (d :: r) := by
          simp [collapseWS, hcd]
        rw [hcoll]
        cases hc : isWS c
        · exact noWSrun_cons_of_not_ws hc _ ih
        · have hd : isWS d = false := by
            cases hdd : isWS d
            · rfl
            · rw [hc, hdd] at hcd; cases hcd
          rw [collapseWS_cons_not_ws hd] at ih ⊢
          exact noWSrun_cons_of_head ih (fun e he => by
            injection he with he; subst he; exact hd)
      · have hcoll : collapseWS (c :: d :: r) = collapseWS (d :: r) := by
          simp [collapseWS, hcd]
        rw [hcoll]; exact ih

lemma collapseWS_of_noWSrun (l : List Char) (h : noWSrun l = true) :
    collapseWS l = l := by
  induction l with
  | nil => rfl
  | cons c t ih =>
    cases t with
    | nil => rfl
    | cons d r =>
      rw [noWSrun] at h
      obtain ⟨h1, h2⟩ := Bool.and_eq_true_iff.mp h
      have h1' : (isWS c && isWS d) = false := by
        cases hcd : (isWS c && isWS d)
        · rfl
        · rw [hcd] at h1; cases h1
      simp [collapseWS, h1', ih h2]

lemma noWSrun_stripL (l : List Char) (h : noWSrun l = true) :
    noWSrun (stripL l) = true :=
  noWSrun_append_right (l.takeWhile isWS) (stripL l)
    (by rw [stripL, List.takeWhile_append_dropWhile]; exact h)

lemma noWSrun_stripR (l : List Char) (h : noWSrun l = true) :
    noWSrun (stripR l) = true :=
  noWSrun_append_left (stripR l) ((l.reverse.takeWhile isWS).reverse)
    (by rw [stripR_decomp]; exact h)

lemma noWSrun_pyStrip (l : List Char) (h : noWSrun l = true) :
    noWSrun (pyStrip l) = true :=
  noWSrun_stripR _ (noWSrun_stripL _ h)

lemma replaceMons_cons_ne_M {c : Char} (hc : c ≠ 'M') (t : List Char) :
    replaceMons (c :: t) = c :: replaceMons t := by
  rw [replaceMons.eq_def]
  split
  · rename_i rest heq
    injection heq with h1 _
    exact absurd h1 hc
  · rename_i c' rest hne h
    injection h with h1 h2
    subst h1; subst h2; rfl
  · rename_i heq
    cases heq

lemma replaceMons_cons_M_not (t : List Char)
    (hn : (['O', 'N', 'S', ':'] : List Char).isPrefixOf t = false) :
    replaceMons ('M' :: t) = 'M' :: replaceMons t := by
  rw [replaceMons.eq_def]
  split
  · rename_i rest heq
    injection heq with h1 h2
    rw [h2] at hn
    simp [List.isPrefixOf] at hn
  · rename_i c' rest hne h
    injection h with h1 h2
    subst h1; subst h2; rfl
  · rename_i heq
    cases heq

lemma replaceMons_ws_front (w y : List Char) (hw : ∀ c ∈ w, isWS c = true) :
    replaceMons (w ++ y) = w ++ replaceMons y := by
  induction w with
  | nil => rfl
  | cons c t ih =>
    have hc : isWS c = true := hw c (List.mem_cons_self c t)
    have hcM : c ≠ 'M' := by
      intro h; subst h; exact absurd hc (by decide)
    rw [List.cons_append, replaceMons_cons_ne_M hcM,
      ih (fun x hx => hw x (List.mem_cons_of_mem c hx))]
    rfl

lemma replaceMons_of_not_contains (l : List Char)
    (h : containsSub mons5 l = false) : replaceMons l = l := by
  induction l with
  | nil => rfl
  | cons c t ih =>
    rw [containsSub] at h
    obtain ⟨h1, h2⟩ : mons5.isPrefixOf (c :: t) = false
        ∧ containsSub mons5 t = false := by
      cases ha : mons5.isPrefixOf (c :: t) <;>
        cases hb : containsSub mons5 t <;>
        simp [ha, hb] at h ⊢
    by_cases hc : c = 'M'
    · subst hc
      have h4 : (['O', 'N', 'S', ':'] : List Char).isPrefixOf t = false := by
        simpa [List.isPrefixOf] using h1
      rw [replaceMons_cons_M_not t h4, ih h2]
    · rw [replaceMons_cons_ne_M hc, ih h2]

lemma replaceMons_kmons (x : List Char) :
    replaceMons (kmons6 ++ x) = 'K' :: replaceMons x := by
  show replaceMons ('K' :: 'M' :: 'O' :: 'N' :: 'S' :: ':' :: x) = _
  rw [replaceMons_cons_ne_M (by decide)]
  rfl

lemma cleanup_round (r : List Char) (hnows : noWSrun r = true)
    (hstrip : pyStrip r = r) (h : containsSub mons5 r = false) :
    cleanup_mons_line r = r := by
  have hkm : kmons6.isPrefixOf r = false := by
    cases hk : kmons6.isPrefixOf r
    · rfl
    · exfalso
      obtain ⟨t, ht⟩ := List.isPrefixOf_iff_prefix.mp hk
      rw [← ht] at h
      simp [kmons6, mons5, containsSub, List.isPrefixOf] at h
  have hrep := replaceMons_of_not_contains r h
  have hcoll := collapseWS_of_noWSrun r hnows
  show pyStrip (collapseWS (replaceMons
      (if kmons6.isPrefixOf (pyStrip r) then pyStrip (afterLastEq (pyStrip r))
       else pyStrip r))) = r
  rw [hstrip, hkm]
  simp only [Bool.false_eq_true, if_false]
  rw [hrep, hcoll, hstrip]

/-- Counterexample to claim C7: normalization is not idempotent on every
string — removing `MONS:` substrings can create a new `MONS:` occurrence,
which a second normalization then removes. -/
theorem c7_counterexample :
    cleanup_mons_line (cleanup_mons_line "MMONS:ONS:".toList)
      ≠ cleanup_mons_line "MMONS:ONS:".toList := by decide

/-- Claim C7 as amended: normalization is idempotent on every string whose
normalized form no longer contains the substring `MONS:` (the marker-removal
step is the only non-idempotent one; trimming and whitespace collapse are
stable). -/
theorem c7_amended (s : List Char)
    (h : containsSub mons5 (cleanup_mons_line s) = false) :
    cleanup_mons_line (cleanup_mons_line s) = cleanup_mons_line s := by
  obtain ⟨y, hy⟩ : ∃ y, cleanup_mons_line s = pyStrip (collapseWS y) := ⟨_, rfl⟩
  have hnows : noWSrun (cleanup_mons_line s) = true := by
    rw [hy]; exact noWSrun_pyStrip _ (noWSrun_collapseWS _)
  have hstrip : pyStrip (cleanup_mons_line s) = cleanup_mons_line s := by
    rw [hy]; exact pyStrip_idem _
  exact cleanup_round _ hnows hstrip h

/-- Witness for C7 on a concrete marker-free input. -/
theorem c7_amended_witness :
    cleanup_mons_line (cleanup_mons_line " orc   priest ".toList)
      = cleanup_mons_line " orc   priest ".toList :=
  c7_amended " orc   priest ".toList (by decide)

lemma getLast?_afterLastEq (l : List Char) (c : Char)
    (h : (afterLastEq l).getLast? = some c) : l.getLast? = some c := by
  rw [afterLastEq, List.getLast?_reverse] at h
  have h2 := head?_takeWhile _ _ _ h
  rwa [List.head?_reverse] at h2

/-- Claim C5: normalization follows exactly the spec's steps — trim, keep the
part after the last `=` for `KMONS:` lines, remove `MONS:` substrings,
collapse whitespace runs, trim again — and on `"KMONS: D = orc priest"` it
yields `"orc priest"`.  (The code's extra intermediate strip of the
glyph-assignment remainder is observationally irrelevant.) -/
theorem c5_normalize :
    (∀ line : List Char, cleanup_mons_line line = spec_normalize line)
      ∧ cleanup_mons_line "KMONS: D = orc priest".toList = "orc priest".toList := by
  refine ⟨?_, by decide⟩
  intro line
  show pyStrip (collapseWS (replaceMons
      (if kmons6.isPrefixOf (pyStrip line) then pyStrip (afterLastEq (pyStrip line))
       else pyStrip line)))
    = pyStrip (collapseWS (replaceMons
      (if kmons6.isPrefixOf (pyStrip line) then afterLastEq (pyStrip line)
       else pyStrip line)))
  cases hk : kmons6.isPrefixOf (pyStrip line)
  · rw [if_neg Bool.false_ne_true, if_neg Bool.false_ne_true]
  · rw [if_pos rfl, if_pos rfl]
    have hlast : ∀ c, (afterLastEq (pyStrip line)).getLast? = some c →
        isWS c = false := by
      intro c hc
      exact getLast?_stripR_not_ws (stripL line) c (getLast?_afterLastEq _ _ hc)
    set a := afterLastEq (pyStrip line) with ha
    have hdec : a.takeWhile isWS ++ stripL a = a :=
      List.takeWhile_append_dropWhile isWS a
    have hlastL : ∀ c, (stripL a).getLast? = some c → isWS c = false := by
      intro c hc
      apply hlast c
      rw [← hdec, List.getLast?_append, hc]
      rfl
    have hpys : pyStrip a = stripL a := stripR_eq_self _ hlastL
    have hw : ∀ c ∈ a.takeWhile isWS, isWS c = true := fun c hc =>
      List.mem_takeWhile_imp hc
    calc pyStrip (collapseWS (replaceMons (pyStrip a)))
        = pyStrip (collapseWS (replaceMons (stripL a))) := by rw [hpys]
      _ = pyStrip (collapseWS (a.takeWhile isWS ++ replaceMons (stripL a))) :=
          (pyStrip_collapseWS_ws_append _ _ hw).symm
      _ = pyStrip (collapseWS (replaceMons (a.takeWhile isWS ++ stripL a))) := by
          rw [replaceMons_ws_front _ _ hw]
      _ = pyStrip (collapseWS (replaceMons a)) := by rw [hdec]

lemma stripR_append (a b : List Char)
    (ha : ∀ c, a.getLast? = some c → isWS c = false) :
    stripR (a ++ b) = a ++ stripR b := by
  rw [stripR, List.reverse_append, List.dropWhile_append]
  cases hbe : (b.reverse.dropWhile isWS).isEmpty
  · rw [if_neg Bool.false_ne_true, List.reverse_append, List.reverse_reverse]
    rfl
  · rw [if_pos rfl]
    have hb0 : b.reverse.dropWhile isWS = [] := by
      cases hx : b.reverse.dropWhile isWS
      · rfl
      · rw [hx] at hbe; cases hbe
    have hda : a.reverse.dropWhile isWS = a.reverse := by
      cases har : a.reverse with
      | nil => simp
      | cons x xs =>
        have hx : a.getLast? = some x := by
          rw [← List.head?_reverse, har]; rfl
        simp [List.dropWhile_cons, ha x hx]
    rw [hda, List.reverse_reverse, stripR, hb0]
    simp

/-- Claim C10: a candidate starting with `KMONS:` but containing no `=` is
never cleanly stripped — only the substring `MONS:` is removed, so the
normalized result still begins with the leftover letter `K`; in particular
`"KMONS: orc"` normalizes to `"K orc"`. -/
theorem c10_kmons_residue :
    (∀ r : List Char, '=' ∉ r →
        (cleanup_mons_line (kmons6 ++ r)).head? = some 'K')
      ∧ cleanup_mons_line "KMONS: orc".toList = "K orc".toList := by
  refine ⟨?_, by decide⟩
  intro r hr
  have hklast : ∀ c, kmons6.getLast? = some c → isWS c = false := by
    intro c hc
    rw [show kmons6.getLast? = some ':' from rfl] at hc
    cases hc; decide
  have hL : stripL (kmons6 ++ r) = kmons6 ++ r := by
    show stripL ('K' :: (['M', 'O', 'N', 'S', ':'] ++ r)) = _
    rw [stripL_cons_not_ws (by decide)]
    rfl
  have hR : stripR (kmons6 ++ r) = kmons6 ++ stripR r := stripR_append _ _ hklast
  have hl1 : pyStrip (kmons6 ++ r) = kmons6 ++ stripR r := by
    rw [pyStrip, hL, hR]
  have hpre : kmons6.isPrefixOf (kmons6 ++ stripR r) = true := by
    simp [List.isPrefixOf_iff_prefix]
  have hmemR : ∀ x, x ∈ stripR r → x ∈ r := fun x hx =>
    ((stripR_prefix_self r).sublist).subset hx
  have hne : '=' ∉ kmons6 ++ stripR r := by
    intro hmem
    rcases List.mem_append.mp hmem with hm | hm
    · exact absurd hm (by decide)
    · exact hr (hmemR _ hm)
  have hafter : afterLastEq (kmons6 ++ stripR r) = kmons6 ++ stripR r :=
    afterLastEq_of_not_mem _ hne
  have hlast2 : ∀ c, (kmons6 ++ stripR r).getLast? = some c → isWS c = false := by
    intro c hc
    rw [List.getLast?_append] at hc
    cases hg : (stripR r).getLast? with
    | some d =>
      rw [hg, show (some d).or kmons6.getLast? = some d from rfl] at hc
      injection hc with hc
      subst hc
      exact getLast?_stripR_not_ws r _ hg
    | none =>
      rw [hg, show (Option.none).or kmons6.getLast? = kmons6.getLast? from rfl] at hc
      exact hklast c hc
  have hstripL2 : stripL (kmons6 ++ stripR r) = kmons6 ++ stripR r := by
    show stripL ('K' :: (['M', 'O', 'N', 'S', ':'] ++ stripR r)) = _
    rw [stripL_cons_not_ws (by decide)]
    rfl
  have hstrip2 : pyStrip (kmons6 ++ stripR r) = kmons6 ++ stripR r := by
    rw [pyStrip, hstripL2]
    exact stripR_eq_self _ hlast2
  show (pyStrip (collapseWS (replaceMons
      (if kmons6.isPrefixOf (pyStrip (kmons6 ++ r))
       then pyStrip (afterLastEq (pyStrip (kmons6 ++ r)))
       else pyStrip (kmons6 ++ r))))).head? = some 'K'
  rw [hl1, if_pos hpre, hafter, hstrip2, replaceMons_kmons,
    collapseWS_cons_not_ws (by decide)]
  have hKlast : ∀ c, (['K'] : List Char).getLast? = some c → isWS c = false := by
    intro c hc
    rw [show (['K'] : List Char).getLast? = some 'K' from rfl] at hc
    cases hc; decide
  have hfin : pyStrip ('K' :: collapseWS (replaceMons (stripR r)))
      = 'K' :: stripR (collapseWS (replaceMons (stripR r))) := by
    rw [pyStrip, stripL_cons_not_ws (by decide)]
    exact stripR_append ['K'] _ hKlast
  rw [hfin]
  rfl

/-- Witness for C10 at the concrete remainder `" orc"`. -/
theorem c10_kmons_residue_witness :
    (cleanup_mons_line (kmons6 ++ " orc".toList)).head? = some 'K' :=
  c10_kmons_residue.1 " orc".toList (by decide)
